import Mathlib

/-!
Verification of the real-time collaborative drawing canvas backend.

This file gives a shallow embedding of the backend's authoritative state
engine and protocol router:

* `drawingState.js` — the per-room operation ledger (`DrawingState`):
  history of drawing operations, undo/redo cursor, and the map of
  in-progress ("pending") operations;
* `roomManager.js` — the session registry (`RoomManager`): lazy room
  creation, user roster, palette-based presence-color assignment;
* `server.js` — the Socket.IO event handlers, modelled as pure functions
  from connection/registry state to new state plus a list of emissions.

JavaScript `Map`s (insertion-ordered) are modelled as association lists;
`Date.now()` is modelled as an explicit `now : Nat` parameter supplied by
the environment (two calls may observe the same millisecond).  Numbers
used as coordinates/widths are modelled as `Int`/`Nat`; the ledger index
`currentIndex` is an `Int` since the code uses `-1` as the empty marker.
-/

namespace Canvas

/-- Insertion-ordered association-list lookup (model of JS `Map.get`). -/
def alGet (m : List (String × α)) (k : String) : Option α :=
  (m.find? (fun p => p.1 == k)).map (fun p => p.2)

/-- Model of JS `Map.set`: replace the value in place if the key is
present, otherwise append the binding at the end. -/
def alSet (m : List (String × α)) (k : String) (v : α) : List (String × α) :=
  match m with
  | [] => [(k, v)]
  | (k', v') :: rest =>
      if k' == k then (k, v) :: rest else (k', v') :: alSet rest k v

/-- Model of JS `Map.delete`: remove the binding for the key, if any. -/
def alErase (m : List (String × α)) (k : String) : List (String × α) :=
  match m with
  | [] => []
  | (k', v') :: rest =>
      if k' == k then rest else (k', v') :: alErase rest k

/-- One point of a stroke (an x/y pair in the source). -/
structure Point where
  x : Int
  y : Int
deriving Repr, DecidableEq

/-- Operation status in `drawingState.js`: `'in-progress'`, `'active'`,
`'undone'`. -/
inductive Status where
  | inProgress
  | active
  | undone
deriving Repr, DecidableEq

/-- A drawing operation as built by `DrawingState.startOperation`. -/
structure Operation where
  id : String
  userId : String
  username : String
  type : String
  color : String
  width : Nat
  points : List Point
  timestamp : Nat
  status : Status
deriving Repr, DecidableEq

/-- The argument record of `DrawingState.startOperation` (built by
`RoomManager.startOperation` from the draw-start payload). -/
structure StartData where
  userId : String
  username : String
  tool : String
  color : String
  width : Nat
  x : Int
  y : Int
deriving Repr, DecidableEq

/-- The value returned by `DrawingState.startOperation`. -/
structure StartResult where
  operationId : String
  x : Int
  y : Int
  color : String
  width : Nat
  tool : String
deriving Repr, DecidableEq

/-- The per-room ledger state of `drawingState.js`:
`operations` (finalized history), `currentIndex` (undo/redo cursor, `-1`
when empty/all-undone), `activeOperations` (the pending map of
in-progress operations). -/
structure DrawingState where
  operations : List Operation
  currentIndex : Int
  activeOperations : List (String × Operation)
deriving Repr, DecidableEq

namespace DrawingState

/-- The freshly constructed ledger (the `DrawingState` constructor). -/
def empty : DrawingState :=
  { operations := [], currentIndex := -1, activeOperations := [] }

/-- The operation id generated by `startOperation`: the template string
interpolating the author id and the clock, i.e. `"op-" + userId + "-" +
Date.now()`. -/
def opIdOf (userId : String) (now : Nat) : String :=
  "op-" ++ userId ++ "-" ++ toString now

/-- The operation record built by `startOperation` before it is stored in
the pending map. -/
def mkOperation (data : StartData) (now : Nat) : Operation :=
  { id := opIdOf data.userId now
    userId := data.userId
    username := data.username
    type := data.tool
    color := data.color
    width := data.width
    points := [{ x := data.x, y := data.y }]
    timestamp := now
    status := Status.inProgress }

/-- Model of `DrawingState.startOperation` (drawingState.js 11–36): create a
fresh in-progress operation seeded with one point, store it in the
pending map, and return the summary record. -/
def startOperation (s : DrawingState) (data : StartData) (now : Nat) :
    DrawingState × StartResult :=
  let operationId := opIdOf data.userId now
  ({ s with activeOperations :=
      (alSet s.activeOperations operationId (mkOperation data now)) },
   { operationId := operationId
     x := data.x
     y := data.y
     color := data.color
     width := data.width
     tool := data.tool })

/-- Append `points` to the first history entry whose id matches
(model of the in-place `operation.points.push(...points)` on the object
returned by `this.operations.find`). -/
def extendFirstMatch (ops : List Operation) (operationId : String)
    (points : List Point) : List Operation :=
  match ops with
  | [] => []
  | op :: rest =>
      if op.id == operationId then
        { op with points := op.points ++ points } :: rest
      else
        op :: extendFirstMatch rest operationId points

/-- Model of `DrawingState.addPoints` (drawingState.js 39–60): look the id up
in the pending map first; if absent, look in the history and append the
points only when that entry's status is `'active'`; otherwise log and
return with no change. -/
def addPoints (s : DrawingState) (operationId : String)
    (points : List Point) : DrawingState :=
  match alGet s.activeOperations operationId with
  | some op =>
      { s with activeOperations :=
          (alSet s.activeOperations operationId
            { op with points := op.points ++ points }) }
  | none =>
      match s.operations.find? (fun op => op.id == operationId) with
      | some op =>
          if op.status = Status.active then
            { s with operations := extendFirstMatch s.operations operationId points }
          else s
      | none => s

/-- Model of `DrawingState.endOperation` (drawingState.js 63–90): if the id
is pending, mark it `'active'`, truncate the history to
`currentIndex + 1` entries, append it, advance the cursor, and drop it
from the pending map; otherwise (already finalized or unknown) log and
return with no change. -/
def endOperation (s : DrawingState) (operationId : String) : DrawingState :=
  match alGet s.activeOperations operationId with
  | none => s
  | some op =>
      let finalized := { op with status := Status.active }
      { operations := s.operations.take (s.currentIndex + 1).toNat ++ [finalized]
        currentIndex := s.currentIndex + 1
        activeOperations := alErase s.activeOperations operationId }

/-- The backward scan of `DrawingState.undo`: from index `n` downward,
find the first history entry with status `'active'`. -/
def findActiveDown (ops : List Operation) : Nat → Option (Nat × Operation)
  | 0 =>
      match ops[0]? with
      | some op => if op.status = Status.active then some (0, op) else none
      | none => none
  | n + 1 =>
      match ops[n + 1]? with
      | some op =>
          if op.status = Status.active then some (n + 1, op)
          else findActiveDown ops n
      | none => findActiveDown ops n

/-- Model of `DrawingState.undo` (drawingState.js 93–112): nothing to undo if
the cursor is negative; otherwise scan backward from the cursor for the
first `'active'` entry, mark it `'undone'`, leave the cursor just below
it, and return it.  If the scan falls off the front the cursor ends at
`-1` and `null` is returned. -/
def undo (s : DrawingState) : DrawingState × Option Operation :=
  if s.currentIndex < 0 then (s, none)
  else
    match findActiveDown s.operations s.currentIndex.toNat with
    | some (i, op) =>
        let op' := { op with status := Status.undone }
        ({ s with operations := s.operations.set i op'
                  currentIndex := (i : Int) - 1 },
         some op')
    | none => ({ s with currentIndex := -1 }, none)

/-- The forward scan of `DrawingState.redo`: find the first entry with
status `'undone'`, reporting its absolute index (the list is the history
suffix starting at absolute index `k`). -/
def findUndoneFrom : List Operation → Nat → Option (Nat × Operation)
  | [], _ => none
  | op :: rest, k =>
      if op.status = Status.undone then some (k, op)
      else findUndoneFrom rest (k + 1)

/-- Model of `DrawingState.redo` (drawingState.js 115–133): nothing to redo
if the cursor is already at (or past) the last entry; otherwise scan
forward from `currentIndex + 1` for the first `'undone'` entry, mark it
`'active'`, move the cursor to it, and return it. -/
def redo (s : DrawingState) : DrawingState × Option Operation :=
  if s.currentIndex ≥ (s.operations.length : Int) - 1 then (s, none)
  else
    match findUndoneFrom (s.operations.drop (s.currentIndex + 1).toNat)
        (s.currentIndex + 1).toNat with
    | some (i, op) =>
        let op' := { op with status := Status.active }
        ({ s with operations := s.operations.set i op'
                  currentIndex := (i : Int) },
         some op')
    | none => (s, none)

/-- The projection of an operation returned by
`DrawingState.getActiveOperations` (drops the status field). -/
structure ActiveOp where
  id : String
  userId : String
  username : String
  type : String
  color : String
  width : Nat
  points : List Point
  timestamp : Nat
deriving Repr, DecidableEq

/-- The field projection used by `getActiveOperations`. -/
def toActiveOp (op : Operation) : ActiveOp :=
  { id := op.id
    userId := op.userId
    username := op.username
    type := op.type
    color := op.color
    width := op.width
    points := op.points
    timestamp := op.timestamp }

/-- Model of `DrawingState.getActiveOperations` (drawingState.js 136–149):
the history entries with status `'active'`, in stored order, projected to
their public fields. -/
def getActiveOperations (s : DrawingState) : List ActiveOp :=
  (s.operations.filter (fun op => op.status == Status.active)).map toActiveOp

/-- Model of `DrawingState.clear` (drawingState.js 152–157). -/
def clear (_s : DrawingState) : DrawingState := empty

end DrawingState

/-- The public ledger operations, as invoked on one room's
`DrawingState`.  `Date.now()` observations are carried as explicit `now`
inputs of the environment. -/
inductive Event where
  | openOp (data : StartData) (now : Nat)
  | extend (operationId : String) (points : List Point)
  | finalize (operationId : String)
  | undoEv
  | redoEv
  | clearEv
deriving Repr, DecidableEq

/-- One step of the ledger state machine (return values discarded). -/
def DrawingState.step (s : DrawingState) : Event → DrawingState
  | Event.openOp data now => (s.startOperation data now).1
  | Event.extend operationId points => s.addPoints operationId points
  | Event.finalize operationId => s.endOperation operationId
  | Event.undoEv => (s.undo).1
  | Event.redoEv => (s.redo).1
  | Event.clearEv => s.clear

/-- Run a sequence of public ledger operations from the empty ledger. -/
def runEvents (es : List Event) : DrawingState :=
  es.foldl DrawingState.step DrawingState.empty

/-- A ledger state is reachable when some sequence of public operations
produces it from the empty ledger. -/
def Reachable (s : DrawingState) : Prop :=
  ∃ es : List Event, runEvents es = s

/-! ## Session registry (`roomManager.js`) -/

/-- A roster entry built by `RoomManager.addUser`. -/
structure User where
  id : String
  username : String
  color : String
  joinedAt : Nat
deriving Repr, DecidableEq

/-- One room of the registry: its ledger, its roster (a JS `Map` keyed by
user id), and the monotonically advancing palette cursor. -/
structure Room where
  drawingState : DrawingState
  users : List (String × User)
  colorIndex : Nat
deriving Repr, DecidableEq

/-- The fixed presence palette `userColors` of `roomManager.js`. -/
def userColors : List String :=
  ["#3b82f6", "#ef4444", "#10b981", "#f59e0b",
   "#8b5cf6", "#ec4899", "#14b8a6", "#f97316"]

/-- The registry state: the rooms `Map` of `RoomManager`. -/
structure RoomManager where
  rooms : List (String × Room)
deriving Repr, DecidableEq

/-- The payload of the `draw-start` client event (style fields chosen by
the drawing author). -/
structure DrawStartData where
  x : Int
  y : Int
  color : String
  width : Nat
  tool : String
deriving Repr, DecidableEq

namespace RoomManager

/-- The freshly constructed registry. -/
def empty : RoomManager := { rooms := [] }

/-- Model of `RoomManager.getRoom` (roomManager.js 20–30): lazily create
the room on first use.  Returns the updated registry together with the
room record (in JS the room object is aliased; here updates are written
back explicitly by the callers). -/
def getRoom (rm : RoomManager) (roomId : String) : RoomManager × Room :=
  match alGet rm.rooms roomId with
  | some room => (rm, room)
  | none =>
      let room : Room :=
        { drawingState := DrawingState.empty, users := [], colorIndex := 0 }
      ({ rooms := alSet rm.rooms roomId room }, room)

/-- Model of `RoomManager.addUser` (roomManager.js 33–51): get-or-create
the room, assign `userColors[colorIndex % userColors.length]`, advance
the color cursor, and insert the user into the roster (replacing any
existing entry with the same id, as JS `Map.set` does). -/
def addUser (rm : RoomManager) (roomId userId username : String) (now : Nat) :
    RoomManager × User :=
  let res := rm.getRoom roomId
  let room := res.2
  let color := userColors.getD (room.colorIndex % userColors.length) ""
  let user : User := { id := userId, username := username, color := color, joinedAt := now }
  let room' : Room :=
    { room with colorIndex := room.colorIndex + 1
                users := alSet room.users userId user }
  ({ rooms := alSet res.1.rooms roomId room' }, user)

/-- Model of `RoomManager.removeUser` (roomManager.js 54–65): delete the
user from the roster; delete the room when its roster becomes empty. -/
def removeUser (rm : RoomManager) (roomId userId : String) : RoomManager :=
  match alGet rm.rooms roomId with
  | none => rm
  | some room =>
      let users' := alErase room.users userId
      if users'.length = 0 then
        { rooms := alErase rm.rooms roomId }
      else
        { rooms := alSet rm.rooms roomId { room with users := users' } }

/-- The value returned by `RoomManager.getRoomState` (roomManager.js
68–74). -/
structure RoomState where
  operations : List DrawingState.ActiveOp
  users : List User
deriving Repr, DecidableEq

/-- Model of `RoomManager.getRoomState`: active operations plus the
roster values (note: `getRoom` may lazily create the room; the returned
registry reflects that). -/
def getRoomState (rm : RoomManager) (roomId : String) : RoomManager × RoomState :=
  let res := rm.getRoom roomId
  (res.1,
   { operations := res.2.drawingState.getActiveOperations
     users := res.2.users.map (fun p => p.2) })

/-- Model of `RoomManager.startOperation` (roomManager.js 77–92): look up
the room (creating it if needed) and the user; in JS a missing user makes
`user.username` throw, which the router's try/catch swallows — modelled
as a `none` result with the registry left as `getRoom` produced it. -/
def startOperation (rm : RoomManager) (roomId userId : String)
    (data : DrawStartData) (now : Nat) : RoomManager × Option StartResult :=
  let res := rm.getRoom roomId
  let room := res.2
  match alGet room.users userId with
  | none => (res.1, none)
  | some user =>
      let opRes := room.drawingState.startOperation
        { userId := userId
          username := user.username
          tool := data.tool
          color := data.color
          width := data.width
          x := data.x
          y := data.y } now
      ({ rooms := alSet res.1.rooms roomId { room with drawingState := opRes.1 } },
       some opRes.2)

/-- Model of `RoomManager.endOperation` (roomManager.js 103–108): no-op
for an unknown room. -/
def endOperation (rm : RoomManager) (roomId operationId : String) : RoomManager :=
  match alGet rm.rooms roomId with
  | none => rm
  | some room =>
      { rooms := alSet rm.rooms roomId
          { room with drawingState := room.drawingState.endOperation operationId } }

end RoomManager

/-! ## Synchronization router (`server.js`)

The Socket.IO handlers are modelled as pure functions from the
per-connection state (`currentRoom`, `currentUser`) and the shared
registry to new states plus a list of emissions.  Only the handlers the
claims are about are embedded: `join-room`, `draw-start`, `cursor-move`. -/

/-- The per-connection mutable variables of the `io.on('connection')`
closure. -/
structure ConnState where
  currentRoom : Option String
  currentUser : Option User
deriving Repr, DecidableEq

/-- A freshly connected socket: not joined anywhere. -/
def ConnState.initial : ConnState := { currentRoom := none, currentUser := none }

/-- The payload of the `join-room` client event.  A field that the client
omitted is `none` (JS `undefined`); `some ""` is a present-but-empty
string, which JS destructuring defaults and `||` treat differently. -/
structure JoinData where
  username : Option String
  room : Option String
deriving Repr, DecidableEq

/-- The events the server emits, with their payloads (only those needed
by the claims). -/
inductive ServerEvent where
  | operationStarted (operationId : String)
  | remoteDrawStart (userId username color : String) (width : Nat)
      (tool operationId : String) (x y : Int)
  | remoteCursor (userId username color : String) (x y : Int)
  | roomState (user : User) (operations : List DrawingState.ActiveOp)
      (users : List User)
  | userJoined (user : User)
deriving Repr, DecidableEq

/-- Where an emission is addressed. -/
inductive Emission where
  | toSender (e : ServerEvent)
  | toRoomOthers (room : String) (e : ServerEvent)
  | toRoomAll (room : String) (e : ServerEvent)
deriving Repr, DecidableEq

/-- The combined result of running one handler. -/
structure HandlerResult where
  rm : RoomManager
  conn : ConnState
  emits : List Emission
deriving Repr, DecidableEq

/-- Model of the `join-room` handler (server.js 56–89): destructure the
payload (`room` defaults to `"default"` only when the field is absent),
leave the previous room if any, join the new room, add the user (name
defaulting through JS `||`, so an empty string also falls back to
`User` + the first four characters of the socket id), send the room
snapshot to the joiner and a `user-joined` notice to the others. -/
def handleJoinRoom (rm : RoomManager) (conn : ConnState) (socketId : String)
    (data : JoinData) (now : Nat) : HandlerResult :=
  let room := data.room.getD "default"
  let rm1 :=
    match conn.currentRoom with
    | some prev => rm.removeUser prev socketId
    | none => rm
  let name :=
    match data.username with
    | some s => if s = "" then "User" ++ socketId.take 4 else s
    | none => "User" ++ socketId.take 4
  let added := rm1.addUser room socketId name now
  let stateRes := added.1.getRoomState room
  { rm := stateRes.1
    conn := { currentRoom := some room, currentUser := some added.2 }
    emits :=
      [Emission.toSender
        (ServerEvent.roomState added.2 stateRes.2.operations stateRes.2.users),
       Emission.toRoomOthers room (ServerEvent.userJoined added.2)] }

/-- Model of the `draw-start` handler (server.js 92–119): ignore when not
joined; start the operation; echo the assigned id to the sender and
broadcast `remote-draw-start` to the rest of the room carrying the
author's chosen drawing style (`data.color`, `data.width`, `data.tool`),
not the presence color.  A throw inside the try (missing user or missing
`currentUser`) produces no emissions. -/
def handleDrawStart (rm : RoomManager) (conn : ConnState) (socketId : String)
    (data : DrawStartData) (now : Nat) : HandlerResult :=
  match conn.currentRoom with
  | none => { rm := rm, conn := conn, emits := [] }
  | some room =>
      let opRes := rm.startOperation room socketId data now
      match opRes.2 with
      | none => { rm := opRes.1, conn := conn, emits := [] }
      | some operation =>
          match conn.currentUser with
          | none => { rm := opRes.1, conn := conn,
                      emits := [Emission.toSender
                        (ServerEvent.operationStarted operation.operationId)] }
          | some user =>
              { rm := opRes.1
                conn := conn
                emits :=
                  [Emission.toSender
                    (ServerEvent.operationStarted operation.operationId),
                   Emission.toRoomOthers room
                    (ServerEvent.remoteDrawStart socketId user.username
                      data.color data.width data.tool operation.operationId
                      data.x data.y)] }

/-- Model of the `cursor-move` handler (server.js 195–210): ignore unless
both `currentRoom` and `currentUser` are set; broadcast the sender's
cursor with the room-assigned presence color (`currentUser.color`). -/
def handleCursorMove (conn : ConnState) (socketId : String) (x y : Int) :
    List Emission :=
  match conn.currentRoom, conn.currentUser with
  | some room, some user =>
      [Emission.toRoomOthers room
        (ServerEvent.remoteCursor socketId user.username user.color x y)]
  | _, _ => []

/-! ## Statements of the specified properties -/

/-- The cursor/status invariant of the ledger (spec §3): the cursor stays
within `[-1, history length)`, entries at indices at most the cursor are
`'active'`, and entries beyond it are `'undone'`. -/
def cursorOk (s : DrawingState) : Prop :=
  -1 ≤ s.currentIndex ∧ s.currentIndex < (s.operations.length : Int) ∧
  ∀ i : Nat, ∀ op : Operation, s.operations[i]? = some op →
    (((i : Int) ≤ s.currentIndex → op.status = Status.active) ∧
     (s.currentIndex < (i : Int) → op.status = Status.undone))

/-- Recognizer for the events allowed in the claim about pure
open/finalize traces. -/
def isOpenOrFin : Event → Bool
  | Event.openOp _ _ => true
  | Event.finalize _ => true
  | _ => false

/-- The ids generated by the `Open` events of a trace, in trace order. -/
def openIds (es : List Event) : List String :=
  es.filterMap (fun e =>
    match e with
    | Event.openOp d now => some (DrawingState.opIdOf d.userId now)
    | _ => none)

/-- Modelled from the spec (§4.1): the reference ledger used to state
"the operations in finalize order".  `Finalize` appends the pending
operation to `hist`, so `hist` is by construction ordered by the
`Finalize` calls. -/
structure LedgerSpec where
  pending : List (String × Operation)
  hist : List Operation
deriving Repr, DecidableEq

/-- Modelled from the spec (§4.1): `Open` stores the operation in
`pending`; `Finalize` moves it, marked `'active'`, to the end of `hist`;
other events are outside the scope of the open/finalize claim. -/
def specStep (st : LedgerSpec) : Event → LedgerSpec
  | Event.openOp d now =>
      { st with pending :=
          (alSet st.pending (DrawingState.opIdOf d.userId now)
            (DrawingState.mkOperation d now)) }
  | Event.finalize operationId =>
      match alGet st.pending operationId with
      | some op =>
          { pending := alErase st.pending operationId
            hist := st.hist ++ [{ op with status := Status.active }] }
      | none => st
  | _ => st

/-- Run of the reference ledger from the empty state. -/
def specRun (es : List Event) : LedgerSpec :=
  es.foldl specStep { pending := [], hist := [] }

/-- Simulation relation between the implementation ledger and the
reference ledger on open/finalize traces. -/
def SimInv (s : DrawingState) (st : LedgerSpec) : Prop :=
  s.operations = st.hist ∧
  s.activeOperations = st.pending ∧
  s.currentIndex = (st.hist.length : Int) - 1 ∧
  ∀ o ∈ st.hist, o.status = Status.active

/-! ### Sample data for concrete witnesses -/

/-- A sample draw-start record. -/
def sampleStart : StartData :=
  { userId := "u", username := "Uma", tool := "brush",
    color := "#112233", width := 3, x := 0, y := 0 }

/-- A second sample draw-start record by another author. -/
def sampleStartB : StartData :=
  { sampleStart with userId := "v", username := "Vic" }

/-- A trace finalizing two operations. -/
def sampleTrace : List Event :=
  [Event.openOp sampleStart 1, Event.finalize (DrawingState.opIdOf "u" 1),
   Event.openOp sampleStartB 2, Event.finalize (DrawingState.opIdOf "v" 2)]

/-- The sample trace followed by an undo. -/
def sampleTraceUndo : List Event := sampleTrace ++ [Event.undoEv]

/-- A trace that reuses an operation id: the same author opens twice in
the same millisecond, the first operation already finalized. -/
def collTrace : List Event :=
  [Event.openOp sampleStart 1, Event.finalize (DrawingState.opIdOf "u" 1),
   Event.openOp sampleStart 1]

/-- A registry with one room `"r"` populated by the single user
`"sock"`. -/
def sampleRM : RoomManager :=
  (RoomManager.empty.addUser "r" "sock" "alice" 1).1

/-- The roster entry `sampleRM` assigns to `"sock"`. -/
def sampleUser : User :=
  { id := "sock", username := "alice", color := "#3b82f6", joinedAt := 1 }

/-- The connection state of `"sock"` after joining room `"r"`. -/
def sampleConn : ConnState :=
  { currentRoom := some "r", currentUser := some sampleUser }

/-- A sample draw-start payload. -/
def sampleDraw : DrawStartData :=
  { x := 1, y := 2, color := "#abcdef", width := 5, tool := "line" }

/-! ## Association-list lemmas -/

theorem alGet_set_self (m : List (String × α)) (k : String) (v : α) :
    alGet (alSet m k v) k = some v := by
  induction m with
  | nil => simp [alGet, alSet, List.find?]
  | cons p rest ih =>
      obtain ⟨k', v'⟩ := p
      by_cases h : k' = k
      · subst h
        simp [alGet, alSet, List.find?]
      · have hb : (k' == k) = false := beq_false_of_ne h
        simp only [alSet, hb, if_false]
        simpa [alGet, List.find?, hb] using ih

theorem alSet_length_of_isSome (m : List (String × α)) (k : String) (v : α)
    (h : (alGet m k).isSome = true) : (alSet m k v).length = m.length := by
  induction m with
  | nil => simp [alGet, List.find?] at h
  | cons p rest ih =>
      obtain ⟨k', v'⟩ := p
      by_cases hk : k' = k
      · subst hk
        simp [alSet]
      · have hb : (k' == k) = false := beq_false_of_ne hk
        have h' : (alGet rest k).isSome = true := by
          simpa [alGet, List.find?, hb] using h
        simp [alSet, hb, ih h']

theorem alSet_of_none (m : List (String × α)) (k : String) (v : α)
    (h : alGet m k = none) : alSet m k v = m ++ [(k, v)] := by
  induction m with
  | nil => simp [alSet]
  | cons p rest ih =>
      obtain ⟨k', v'⟩ := p
      by_cases hk : k' = k
      · subst hk
        simp [alGet, List.find?] at h
      · have hb : (k' == k) = false := beq_false_of_ne hk
        simp [alSet, hb, ih (by simpa [alGet, List.find?, hb] using h)]

theorem alErase_keys (m : List (String × α)) (k : String) :
    (alErase m k).map Prod.fst = (m.map Prod.fst).erase k := by
  induction m with
  | nil => simp [alErase]
  | cons p rest ih =>
      obtain ⟨k', v'⟩ := p
      by_cases hk : k' = k
      · subst hk
        simp [alErase, List.erase_cons]
      · have hb : (k' == k) = false := beq_false_of_ne hk
        simp [alErase, List.erase_cons, hb, ih]

theorem alGet_mem_keys (m : List (String × α)) (k : String)
    (h : (alGet m k).isSome = true) : k ∈ m.map Prod.fst := by
  induction m with
  | nil => simp [alGet, List.find?] at h
  | cons p rest ih =>
      obtain ⟨k', v'⟩ := p
      by_cases hk : k' = k
      · subst hk; simp
      · have hb : (k' == k) = false := beq_false_of_ne hk
        have h' : (alGet rest k).isSome = true := by
          simpa [alGet, List.find?, hb] using h
        simp [ih h']

/-! ## C7: Extend on an absent or undone id is a no-op -/

/-- C7.  For every ledger state and every operation id that is not in the
pending map and whose history lookup (the first matching entry, as
`Array.prototype.find` returns) either fails or finds an `'undone'`
entry, `addPoints` returns the state unchanged: it neither raises (it is
a total function) nor alters the history length or any other field. -/
theorem extend_unknown_or_undone_noop (s : DrawingState) (operationId : String)
    (points : List Point)
    (hpend : alGet s.activeOperations operationId = none)
    (hhist : (s.operations.find? (fun op => op.id == operationId)).all
      (fun op => op.status == Status.undone) = true) :
    s.addPoints operationId points = s := by
  unfold DrawingState.addPoints
  rw [hpend]
  cases hfind : s.operations.find? (fun op => op.id == operationId) with
  | none => rfl
  | some o =>
      rw [hfind] at hhist
      have : o.status = Status.undone := by simpa using hhist
      simp [this]

/-- Witness for C7 at a concrete reachable state: after finalizing two
operations and undoing the second, extending the undone operation leaves
the ledger unchanged. -/
theorem extend_unknown_or_undone_noop_witness :
    alGet (runEvents sampleTraceUndo).activeOperations
      (DrawingState.opIdOf "v" 2) = none
    ∧ (runEvents sampleTraceUndo).addPoints (DrawingState.opIdOf "v" 2)
        [{ x := 9, y := 9 }] = runEvents sampleTraceUndo :=
  ⟨by decide,
   extend_unknown_or_undone_noop (runEvents sampleTraceUndo)
     (DrawingState.opIdOf "v" 2) [{ x := 9, y := 9 }] (by decide) (by decide)⟩

/-! ## C6: idempotence of Finalize -/

/-- Counterexample to C6 as stated.  The id scheme reuses
`op-<author>-<millisecond>`; at the reachable state produced by
`collTrace` (the same author opened twice in one millisecond, the first
operation already finalized) the id `op-u-1` is present in history, yet
calling `endOperation` on it again finds the second, pending operation
first and appends it — the ledger state changes. -/
theorem finalize_not_idempotent_on_reused_id :
    ((runEvents collTrace).operations.find?
      (fun op => op.id == DrawingState.opIdOf "u" 1)).isSome = true
    ∧ (runEvents collTrace).endOperation (DrawingState.opIdOf "u" 1)
        ≠ runEvents collTrace := by
  decide

/-- C6 as amended.  For every ledger state and every operation id found
in the history but not in the pending map, `endOperation` succeeds and
leaves the entire ledger state unchanged.  (The qualifier "not in the
pending map" is forced by the id-reuse counterexample above; whenever
operation ids are unique — the intent recorded in the spec — a history id
is never simultaneously pending.) -/
theorem finalize_idempotent_of_not_pending (s : DrawingState)
    (operationId : String)
    (hpend : alGet s.activeOperations operationId = none)
    (_hhist : ((s.operations.find? (fun op => op.id == operationId)).isSome) = true) :
    s.endOperation operationId = s := by
  unfold DrawingState.endOperation
  rw [hpend]

/-- Witness for the amended C6: finalizing `op-u-1` a second time after
it entered history leaves the reachable state of `sampleTrace`
unchanged. -/
theorem finalize_idempotent_of_not_pending_witness :
    alGet (runEvents sampleTrace).activeOperations
      (DrawingState.opIdOf "u" 1) = none
    ∧ (runEvents sampleTrace).endOperation (DrawingState.opIdOf "u" 1)
        = runEvents sampleTrace :=
  ⟨by decide,
   finalize_idempotent_of_not_pending (runEvents sampleTrace)
     (DrawingState.opIdOf "u" 1) (by decide) (by decide)⟩

/-- After `addUser`, the target room is present in the registry and its
roster maps the user id to the returned user record. -/
theorem addUser_roster (rm : RoomManager) (roomId userId username : String)
    (now : Nat) :
    ∃ room' : Room,
      alGet (rm.addUser roomId userId username now).1.rooms roomId = some room'
      ∧ alGet room'.users userId
          = some (rm.addUser roomId userId username now).2 := by
  simp only [RoomManager.addUser]
  exact ⟨_, alGet_set_self _ _ _, alGet_set_self _ _ _⟩

/-- The registry returned by `getRoomState` right after `addUser` still
maps the room id to the updated room. -/
theorem addUser_getRoomState_roster (rm : RoomManager)
    (roomId userId username : String) (now : Nat) :
    ∃ room' : Room,
      alGet ((rm.addUser roomId userId username now).1.getRoomState
        roomId).1.rooms roomId = some room'
      ∧ alGet room'.users userId
          = some (rm.addUser roomId userId username now).2 := by
  obtain ⟨room', h1, h2⟩ := addUser_roster rm roomId userId username now
  refine ⟨room', ?_, h2⟩
  simp [RoomManager.getRoomState, RoomManager.getRoom, h1]

/-! ## Cursor/status invariant machinery -/

theorem extendFirstMatch_length (ops : List Operation) (oid : String)
    (pts : List Point) :
    (DrawingState.extendFirstMatch ops oid pts).length = ops.length := by
  induction ops with
  | nil => rfl
  | cons op rest ih =>
      by_cases h : (op.id == oid) = true
      · simp [DrawingState.extendFirstMatch, h]
      · rw [Bool.not_eq_true] at h
        simp [DrawingState.extendFirstMatch, h, ih]

theorem extendFirstMatch_status (ops : List Operation) (oid : String)
    (pts : List Point) (i : Nat) :
    ((DrawingState.extendFirstMatch ops oid pts)[i]?).map Operation.status
      = (ops[i]?).map Operation.status := by
  induction ops generalizing i with
  | nil => rfl
  | cons op rest ih =>
      by_cases h : (op.id == oid) = true
      · cases i with
        | zero => simp [DrawingState.extendFirstMatch, h]
        | succ n => simp [DrawingState.extendFirstMatch, h]
      · rw [Bool.not_eq_true] at h
        cases i with
        | zero => simp [DrawingState.extendFirstMatch, h]
        | succ n => simp [DrawingState.extendFirstMatch, h, ih]

theorem cursorOk_startOperation (s : DrawingState) (data : StartData)
    (now : Nat) (h : cursorOk s) : cursorOk (s.startOperation data now).1 :=
  h

theorem cursorOk_empty : cursorOk DrawingState.empty := by
  refine ⟨by norm_num [DrawingState.empty], by norm_num [DrawingState.empty], ?_⟩
  intro i op hi
  simp [DrawingState.empty] at hi

theorem cursorOk_clear (s : DrawingState) : cursorOk s.clear :=
  cursorOk_empty

theorem cursorOk_addPoints (s : DrawingState) (oid : String)
    (pts : List Point) (h : cursorOk s) : cursorOk (s.addPoints oid pts) := by
  unfold DrawingState.addPoints
  cases hp : alGet s.activeOperations oid with
  | some op => exact h
  | none =>
      cases hf : s.operations.find? (fun op => op.id == oid) with
      | none => exact h
      | some op =>
          dsimp only
          by_cases ha : op.status = Status.active
          · rw [if_pos ha]
            obtain ⟨hb1, hb2, hst⟩ := h
            refine ⟨hb1, ?_, ?_⟩
            · show s.currentIndex < ((DrawingState.extendFirstMatch
                s.operations oid pts).length : Int)
              rw [extendFirstMatch_length]
              exact hb2
            · intro i op' hi
              have hmap := extendFirstMatch_status s.operations oid pts i
              rw [hi] at hmap
              cases hq : s.operations[i]? with
              | none => rw [hq] at hmap; exact Option.noConfusion hmap
              | some op0 =>
                  rw [hq] at hmap
                  have hmap' : op'.status = op0.status :=
                    Option.some.inj hmap
                  have hh := hst i op0 hq
                  exact ⟨fun hc => by rw [hmap']; exact hh.1 hc,
                         fun hc => by rw [hmap']; exact hh.2 hc⟩
          · rw [if_neg ha]
            exact h

theorem cursorOk_endOperation (s : DrawingState) (oid : String)
    (h : cursorOk s) : cursorOk (s.endOperation oid) := by
  unfold DrawingState.endOperation
  cases hp : alGet s.activeOperations oid with
  | none => exact h
  | some op =>
      obtain ⟨hb1, hb2, hst⟩ := h
      have htle : (s.currentIndex + 1).toNat ≤ s.operations.length := by
        omega
      have hlen : (s.operations.take (s.currentIndex + 1).toNat).length
          = (s.currentIndex + 1).toNat := by
        rw [List.length_take]
        omega
      unfold cursorOk
      dsimp only
      refine ⟨by omega, ?_, ?_⟩
      · rw [List.length_append, hlen, List.length_singleton]
        omega
      · intro i op' hi
        rcases Nat.lt_trichotomy i (s.currentIndex + 1).toNat with hlt | heq | hgt
        · rw [List.getElem?_append_left (by rw [hlen]; exact hlt),
            List.getElem?_take_of_lt hlt] at hi
          have hh := hst i op' hi
          refine ⟨fun _ => hh.1 (by omega), fun hc => absurd hc (by omega)⟩
        · subst heq
          have hcat : (s.operations.take (s.currentIndex + 1).toNat
              ++ [{ op with status := Status.active }])[(s.operations.take
                (s.currentIndex + 1).toNat).length]?
              = some { op with status := Status.active } :=
            List.getElem?_concat_length _ _
          rw [hlen] at hcat
          rw [hcat] at hi
          cases Option.some.inj hi
          refine ⟨fun _ => rfl, fun hc => absurd hc (by omega)⟩
        · have hnone : (s.operations.take (s.currentIndex + 1).toNat
              ++ [{ op with status := Status.active }])[i]? = none := by
            apply List.getElem?_eq_none
            rw [List.length_append, hlen, List.length_singleton]
            omega
          rw [hnone] at hi
          exact Option.noConfusion hi

/-- When the entry at the scan's starting index is already `'active'`,
the backward scan of `undo` stops immediately. -/
theorem findActiveDown_of_active (ops : List Operation) (n : Nat)
    (op : Operation) (hq : ops[n]? = some op)
    (ha : op.status = Status.active) :
    DrawingState.findActiveDown ops n = some (n, op) := by
  cases n with
  | zero => simp [DrawingState.findActiveDown, hq, ha]
  | succ m => simp [DrawingState.findActiveDown, hq, ha]

/-- When the first scanned entry is `'undone'`, the forward scan of
`redo` stops immediately. -/
theorem findUndoneFrom_cons_undone (op : Operation) (rest : List Operation)
    (k : Nat) (hu : op.status = Status.undone) :
    DrawingState.findUndoneFrom (op :: rest) k = some (k, op) := by
  simp [DrawingState.findUndoneFrom, hu]

theorem cursorOk_undo (s : DrawingState) (h : cursorOk s) :
    cursorOk (s.undo).1 := by
  obtain ⟨hb1, hb2, hst⟩ := h
  unfold DrawingState.undo
  by_cases hc : s.currentIndex < 0
  · rw [if_pos hc]
    exact ⟨hb1, hb2, hst⟩
  · rw [if_neg hc]
    have hlt : s.currentIndex.toNat < s.operations.length := by omega
    have hq : s.operations[s.currentIndex.toNat]?
        = some (s.operations[s.currentIndex.toNat]) :=
      List.getElem?_eq_getElem hlt
    have hact : (s.operations[s.currentIndex.toNat]).status
        = Status.active :=
      (hst _ _ hq).1 (by omega)
    rw [findActiveDown_of_active _ _ _ hq hact]
    unfold cursorOk
    dsimp only
    refine ⟨by omega, by rw [List.length_set]; omega, ?_⟩
    intro i op' hi
    by_cases hieq : i = s.currentIndex.toNat
    · subst hieq
      rw [List.getElem?_set_self hlt] at hi
      cases Option.some.inj hi
      exact ⟨fun hcc => absurd hcc (by omega), fun _ => rfl⟩
    · rw [List.getElem?_set_ne (fun hh => hieq hh.symm)] at hi
      have hh := hst i op' hi
      exact ⟨fun hcc => hh.1 (by omega), fun hcc => hh.2 (by omega)⟩

theorem cursorOk_redo (s : DrawingState) (h : cursorOk s) :
    cursorOk (s.redo).1 := by
  obtain ⟨hb1, hb2, hst⟩ := h
  unfold DrawingState.redo
  by_cases hc : s.currentIndex ≥ (s.operations.length : Int) - 1
  · rw [if_pos hc]
    exact ⟨hb1, hb2, hst⟩
  · rw [if_neg hc]
    have hlt : (s.currentIndex + 1).toNat < s.operations.length := by omega
    have hq : s.operations[(s.currentIndex + 1).toNat]?
        = some (s.operations[(s.currentIndex + 1).toNat]) :=
      List.getElem?_eq_getElem hlt
    have hundone : (s.operations[(s.currentIndex + 1).toNat]).status
        = Status.undone :=
      (hst _ _ hq).2 (by omega)
    rw [List.drop_eq_getElem_cons hlt,
      findUndoneFrom_cons_undone _ _ _ hundone]
    unfold cursorOk
    dsimp only
    refine ⟨by omega, by rw [List.length_set]; omega, ?_⟩
    intro i op' hi
    by_cases hieq : i = (s.currentIndex + 1).toNat
    · subst hieq
      rw [List.getElem?_set_self hlt] at hi
      cases Option.some.inj hi
      exact ⟨fun _ => rfl, fun hcc => absurd hcc (by omega)⟩
    · rw [List.getElem?_set_ne (fun hh => hieq hh.symm)] at hi
      have hh := hst i op' hi
      exact ⟨fun hcc => hh.1 (by omega), fun hcc => hh.2 (by omega)⟩

/-- Every public ledger operation preserves the cursor/status
invariant. -/
theorem cursorOk_step (s : DrawingState) (e : Event) (h : cursorOk s) :
    cursorOk (s.step e) := by
  cases e with
  | openOp data now => exact cursorOk_startOperation s data now h
  | extend oid pts => exact cursorOk_addPoints s oid pts h
  | finalize oid => exact cursorOk_endOperation s oid h
  | undoEv => exact cursorOk_undo s h
  | redoEv => exact cursorOk_redo s h
  | clearEv => exact cursorOk_clear s

/-- Every reachable ledger state satisfies the cursor/status
invariant. -/
theorem reachable_cursorOk (s : DrawingState) (h : Reachable s) :
    cursorOk s := by
  obtain ⟨es, rfl⟩ := h
  suffices hgen : ∀ s0 : DrawingState, cursorOk s0 →
      cursorOk (es.foldl DrawingState.step s0) by
    exact hgen DrawingState.empty cursorOk_empty
  induction es with
  | nil => intro s0 h0; exact h0
  | cons e rest ih =>
      intro s0 h0
      exact ih _ (cursorOk_step s0 e h0)

/-! ## C1: the cursor/status invariant holds in every reachable state -/

/-- C1.  For every ledger state reachable from the empty ledger by any
sequence of the public operations (open, extend, finalize, undo, redo,
clear), the cursor lies in `[-1, history length)` — with `-1` denoting
the empty/all-undone state — every history entry at index at most the
cursor is `'active'`, and every entry beyond the cursor is `'undone'`. -/
theorem cursor_status_invariant (s : DrawingState) (h : Reachable s) :
    cursorOk s :=
  reachable_cursorOk s h

/-- Witness for C1 at the concrete reachable state reached by two
finalizes followed by an undo. -/
theorem cursor_status_invariant_witness :
    Reachable (runEvents sampleTraceUndo)
    ∧ cursorOk (runEvents sampleTraceUndo) :=
  ⟨⟨sampleTraceUndo, rfl⟩,
   cursor_status_invariant (runEvents sampleTraceUndo)
     ⟨sampleTraceUndo, rfl⟩⟩

/-! ## C5: redo immediately after undo restores the state -/

/-- Writing back the value already stored at an index leaves a list
unchanged. -/
theorem set_getElem?_self (l : List α) (i : Nat) (a : α)
    (h : l[i]? = some a) : l.set i a = l := by
  induction l generalizing i with
  | nil => rfl
  | cons x xs ih =>
      cases i with
      | zero =>
          have hxa : x = a := by simpa using h
          subst hxa
          rfl
      | succ n =>
          simp only [List.set_cons_succ, List.cons.injEq, true_and]
          exact ih n (by simpa using h)

/-- Restoring the status field it already has leaves an operation record
unchanged. -/
theorem op_with_own_status (op : Operation) (st : Status)
    (h : op.status = st) : { op with status := st } = op := by
  cases op
  cases h
  rfl

/-- C5.  In every reachable ledger state where `undo` returns an
operation, an immediately following `redo` returns that same operation
with its status restored to `'active'` (all other fields unchanged), and
the resulting ledger state — history, cursor and pending map — is
exactly the pre-undo state. -/
theorem redo_after_undo_roundtrip (s s' : DrawingState) (op : Operation)
    (hre : Reachable s) (h : s.undo = (s', some op)) :
    s'.redo = (s, some { op with status := Status.active }) := by
  obtain ⟨hb1, hb2, hst⟩ := reachable_cursorOk s hre
  unfold DrawingState.undo at h
  by_cases hc : s.currentIndex < 0
  · rw [if_pos hc] at h
    exact absurd (congrArg Prod.snd h) (by simp)
  · rw [if_neg hc] at h
    have hlt : s.currentIndex.toNat < s.operations.length := by omega
    obtain ⟨opc, hq⟩ : ∃ opc : Operation,
        s.operations[s.currentIndex.toNat]? = some opc :=
      ⟨_, List.getElem?_eq_getElem hlt⟩
    have hact : opc.status = Status.active := (hst _ _ hq).1 (by omega)
    rw [findActiveDown_of_active _ _ _ hq hact] at h
    dsimp only at h
    injection h with h1 h2
    subst h1
    injection h2 with h2
    subst h2
    unfold DrawingState.redo
    dsimp only
    have hlt' : s.currentIndex.toNat
        < (s.operations.set s.currentIndex.toNat
            { opc with status := Status.undone }).length := by
      rw [List.length_set]
      exact hlt
    rw [if_neg (by
      rw [List.length_set]
      omega)]
    rw [show ((s.currentIndex.toNat : Int) - 1 + 1).toNat
        = s.currentIndex.toNat by omega]
    rw [List.drop_eq_getElem_cons hlt']
    rw [List.getElem_set_self hlt']
    rw [findUndoneFrom_cons_undone _ _ _ rfl]
    dsimp only
    rw [List.set_set]
    rw [op_with_own_status opc Status.active hact]
    rw [set_getElem?_self _ _ _ hq]
    rw [show ((s.currentIndex.toNat : Int)) = s.currentIndex by omega]

/-- Witness for C5 at the concrete reachable state of `sampleTrace`:
undoing the second finalized operation and redoing restores the exact
pre-undo ledger. -/
theorem redo_after_undo_roundtrip_witness :
    (runEvents sampleTrace).undo
      = ((runEvents sampleTraceUndo),
         some { DrawingState.mkOperation sampleStartB 2 with
                status := Status.undone })
    ∧ (runEvents sampleTraceUndo).redo
      = ((runEvents sampleTrace),
         some { { DrawingState.mkOperation sampleStartB 2 with
                  status := Status.undone } with
                status := Status.active }) :=
  ⟨by decide,
   redo_after_undo_roundtrip (runEvents sampleTrace)
     (runEvents sampleTraceUndo)
     { DrawingState.mkOperation sampleStartB 2 with status := Status.undone }
     ⟨sampleTrace, rfl⟩ (by decide)⟩

/-! ## C4: a fresh finalize after an undo discards the redo tail -/

/-- C4.  From any reachable ledger state, after a successful `undo`,
opening a new operation and finalizing it truncates away every
previously-undone history entry beyond the new cursor — the resulting
history consists of `'active'` entries only — and a `redo` called on the
resulting state returns none and changes nothing. -/
theorem finalize_after_undo_discards_redo_tail (s s' : DrawingState)
    (op : Operation) (hre : Reachable s) (h : s.undo = (s', some op))
    (d : StartData) (now : Nat) :
    (∀ o ∈ (((s'.startOperation d now).1).endOperation
        (DrawingState.opIdOf d.userId now)).operations,
      o.status = Status.active)
    ∧ (((s'.startOperation d now).1).endOperation
        (DrawingState.opIdOf d.userId now)).redo
      = ((((s'.startOperation d now).1).endOperation
          (DrawingState.opIdOf d.userId now)), none) := by
  have hInv : cursorOk s := reachable_cursorOk s hre
  have hInv' : cursorOk s' := by
    have hstep : s.step Event.undoEv = s' := by
      show (s.undo).1 = s'
      rw [h]
    rw [← hstep]
    exact cursorOk_undo s hInv
  obtain ⟨hb1, hb2, hst⟩ := hInv'
  have hget : alGet ((s'.startOperation d now).1).activeOperations
      (DrawingState.opIdOf d.userId now)
      = some (DrawingState.mkOperation d now) :=
    alGet_set_self _ _ _
  have hops1 : ((s'.startOperation d now).1).operations = s'.operations := rfl
  have hci1 : ((s'.startOperation d now).1).currentIndex
      = s'.currentIndex := rfl
  have htle : (s'.currentIndex + 1).toNat ≤ s'.operations.length := by omega
  have hlen : (s'.operations.take (s'.currentIndex + 1).toNat).length
      = (s'.currentIndex + 1).toNat := by
    rw [List.length_take]
    omega
  have hs2 : (((s'.startOperation d now).1).endOperation
      (DrawingState.opIdOf d.userId now)).operations
      = s'.operations.take (s'.currentIndex + 1).toNat
        ++ [{ DrawingState.mkOperation d now with status := Status.active }]
      ∧ (((s'.startOperation d now).1).endOperation
          (DrawingState.opIdOf d.userId now)).currentIndex
        = s'.currentIndex + 1 := by
    unfold DrawingState.endOperation
    rw [hget]
    exact ⟨rfl, rfl⟩
  constructor
  · intro o ho
    rw [hs2.1] at ho
    rcases List.mem_append.1 ho with hmem | hmem
    · obtain ⟨i, hi⟩ := List.getElem?_of_mem hmem
      have hilt : i < (s'.currentIndex + 1).toNat := by
        have : i < (s'.operations.take (s'.currentIndex + 1).toNat).length := by
          by_contra hcon
          rw [List.getElem?_eq_none (by omega)] at hi
          exact Option.noConfusion hi
        omega
      rw [List.getElem?_take_of_lt hilt] at hi
      exact (hst i o hi).1 (by omega)
    · rw [List.mem_singleton.1 hmem]
  · unfold DrawingState.redo
    rw [if_pos (by
      rw [hs2.1, hs2.2, List.length_append, hlen, List.length_singleton]
      omega)]

/-- Witness for C4: undo the second sample operation, then open and
finalize a fresh one — every remaining entry is active and redo returns
none. -/
theorem finalize_after_undo_discards_redo_tail_witness :
    (runEvents sampleTrace).undo
      = ((runEvents sampleTraceUndo),
         some { DrawingState.mkOperation sampleStartB 2 with
                status := Status.undone })
    ∧ ((∀ o ∈ ((((runEvents sampleTraceUndo).startOperation sampleStart 5).1).endOperation
          (DrawingState.opIdOf sampleStart.userId 5)).operations,
        o.status = Status.active)
      ∧ ((((runEvents sampleTraceUndo).startOperation sampleStart 5).1).endOperation
          (DrawingState.opIdOf sampleStart.userId 5)).redo
        = (((((runEvents sampleTraceUndo).startOperation sampleStart 5).1).endOperation
            (DrawingState.opIdOf sampleStart.userId 5)), none)) :=
  ⟨by decide,
   finalize_after_undo_discards_redo_tail (runEvents sampleTrace)
     (runEvents sampleTraceUndo)
     { DrawingState.mkOperation sampleStartB 2 with status := Status.undone }
     ⟨sampleTrace, rfl⟩ (by decide) sampleStart 5⟩

/-! ## C2: pure open/finalize traces and finalize order -/

theorem alGet_mem (m : List (String × α)) (k : String) (v : α)
    (h : alGet m k = some v) : (k, v) ∈ m := by
  induction m with
  | nil => simp [alGet, List.find?] at h
  | cons p rest ih =>
      obtain ⟨k', v'⟩ := p
      by_cases hk : k' = k
      · subst hk
        have : v' = v := by simpa [alGet, List.find?] using h
        subst this
        exact List.mem_cons_self _ _
      · have hb : (k' == k) = false := beq_false_of_ne hk
        exact List.mem_cons_of_mem _ (ih (by simpa [alGet, List.find?, hb] using h))

theorem alErase_subset (m : List (String × α)) (k : String) (p : String × α)
    (h : p ∈ alErase m k) : p ∈ m := by
  induction m with
  | nil => simp [alErase] at h
  | cons q rest ih =>
      obtain ⟨k', v'⟩ := q
      by_cases hk : k' = k
      · subst hk
        simp only [alErase, beq_self_eq_true, if_true] at h
        exact List.mem_cons_of_mem _ h
      · have hb : (k' == k) = false := beq_false_of_ne hk
        simp only [alErase, hb, if_false] at h
        rcases List.mem_cons.1 h with hh | hh
        · exact hh ▸ List.mem_cons_self _ _
        · exact List.mem_cons_of_mem _ (ih hh)

theorem simInv_empty : SimInv DrawingState.empty { pending := [], hist := [] } := by
  refine ⟨rfl, rfl, by simp [DrawingState.empty], ?_⟩
  intro o ho
  simp at ho

/-- One open/finalize step preserves the simulation between the
implementation ledger and the reference ledger. -/
theorem simInv_step (s : DrawingState) (st : LedgerSpec) (e : Event)
    (hsim : SimInv s st) (he : isOpenOrFin e = true) :
    SimInv (s.step e) (specStep st e) := by
  obtain ⟨hops, hpend, hci, hact⟩ := hsim
  cases e with
  | undoEv => simp [isOpenOrFin] at he
  | redoEv => simp [isOpenOrFin] at he
  | clearEv => simp [isOpenOrFin] at he
  | extend oid pts => simp [isOpenOrFin] at he
  | openOp d now =>
      refine ⟨hops, ?_, hci, hact⟩
      show alSet s.activeOperations (DrawingState.opIdOf d.userId now)
          (DrawingState.mkOperation d now)
        = alSet st.pending (DrawingState.opIdOf d.userId now)
          (DrawingState.mkOperation d now)
      rw [hpend]
  | finalize oid =>
      show SimInv (s.endOperation oid) (specStep st (Event.finalize oid))
      unfold DrawingState.endOperation specStep
      dsimp only
      rw [hpend]
      cases hg : alGet st.pending oid with
      | none =>
          dsimp only
          exact ⟨hops, hpend, hci, hact⟩
      | some op =>
          have htake : s.operations.take (s.currentIndex + 1).toNat
              = st.hist := by
            rw [hops, hci]
            rw [show (((st.hist.length : Int) - 1 + 1)).toNat
                = st.hist.length by omega]
            exact List.take_length st.hist
          unfold SimInv
          dsimp only
          refine ⟨?_, rfl, ?_, ?_⟩
          · rw [htake]
          · rw [hci, List.length_append, List.length_singleton]
            push_cast
            omega
          · intro o ho
            rcases List.mem_append.1 ho with hm | hm
            · exact hact o hm
            · rw [List.mem_singleton.1 hm]

/-- On a pure open/finalize trace the implementation ledger simulates
the reference ledger. -/
theorem simInv_run (es : List Event) (h : es.all isOpenOrFin = true) :
    SimInv (runEvents es) (specRun es) := by
  suffices hgen : ∀ (s : DrawingState) (st : LedgerSpec), SimInv s st →
      SimInv (es.foldl DrawingState.step s) (es.foldl specStep st) by
    exact hgen DrawingState.empty { pending := [], hist := [] } simInv_empty
  induction es with
  | nil => intro s st hsim; exact hsim
  | cons e rest ih =>
      intro s st hsim
      rw [List.all_cons, Bool.and_eq_true] at h
      exact ih h.2 _ _ (simInv_step s st e hsim h.1)

theorem perm_shuffle_open (A B C : List String) (a : String) :
    (((A ++ [a]) ++ B) ++ C).Perm ((A ++ B) ++ (a :: C)) := by
  apply List.perm_iff_count.mpr
  intro x
  simp [List.count_append, List.count_cons]
  omega

theorem perm_shuffle_fin (A B R : List String) (a : String) (ha : a ∈ A) :
    ((A.erase a ++ (B ++ [a])) ++ R).Perm ((A ++ B) ++ R) := by
  apply List.perm_iff_count.mpr
  intro x
  by_cases hx : a = x
  · subst hx
    have hpos : 0 < A.count a := List.count_pos_iff.mpr ha
    simp [List.count_append, List.count_erase]
    omega
  · have hb : (a == x) = false := beq_false_of_ne hx
    simp [List.count_append, List.count_erase, List.count_cons, hb]

/-- Multiset bookkeeping for the reference ledger: on a pure
open/finalize trace with fresh open ids, the ids in `pending` and `hist`
together are a permutation of the initial ids plus the opened ids, and
every pending binding keys an operation by its own id. -/
theorem specRun_keys_perm (es : List Event) :
    ∀ st : LedgerSpec,
    es.all isOpenOrFin = true →
    (openIds es).Nodup →
    (∀ x ∈ openIds es, x ∉ st.pending.map Prod.fst) →
    (∀ p ∈ st.pending, (p.2).id = p.1) →
    ((es.foldl specStep st).pending.map Prod.fst
        ++ (es.foldl specStep st).hist.map Operation.id).Perm
      ((st.pending.map Prod.fst ++ st.hist.map Operation.id) ++ openIds es)
    ∧ (∀ p ∈ (es.foldl specStep st).pending, (p.2).id = p.1) := by
  induction es with
  | nil =>
      intro st _ _ _ hpid
      refine ⟨?_, hpid⟩
      simp [openIds]
  | cons e rest ih =>
      intro st hall hnd hfresh hpid
      rw [List.all_cons, Bool.and_eq_true] at hall
      cases e with
      | undoEv => simp [isOpenOrFin] at hall
      | redoEv => simp [isOpenOrFin] at hall
      | clearEv => simp [isOpenOrFin] at hall
      | extend oid pts => simp [isOpenOrFin] at hall
      | openOp d now =>
          have hids : openIds (Event.openOp d now :: rest)
              = DrawingState.opIdOf d.userId now :: openIds rest := by
            simp [openIds]
          rw [hids] at hnd hfresh
          have hno : DrawingState.opIdOf d.userId now ∉ openIds rest :=
            (List.nodup_cons.1 hnd).1
          have hnd' : (openIds rest).Nodup := (List.nodup_cons.1 hnd).2
          have hkey : DrawingState.opIdOf d.userId now
              ∉ st.pending.map Prod.fst :=
            hfresh _ (List.mem_cons_self _ _)
          have halget : alGet st.pending (DrawingState.opIdOf d.userId now)
              = none := by
            cases hal : alGet st.pending (DrawingState.opIdOf d.userId now) with
            | none => rfl
            | some v =>
                exact absurd (alGet_mem_keys _ _ (by rw [hal]; rfl)) hkey
          have hpend' : alSet st.pending (DrawingState.opIdOf d.userId now)
              (DrawingState.mkOperation d now)
              = st.pending
                ++ [(DrawingState.opIdOf d.userId now,
                     DrawingState.mkOperation d now)] :=
            alSet_of_none _ _ _ halget
          have hstep : specStep st (Event.openOp d now)
              = { st with pending := st.pending
                  ++ [(DrawingState.opIdOf d.userId now,
                       DrawingState.mkOperation d now)] } := by
            simp [specStep, hpend']
          rw [List.foldl_cons, hstep]
          obtain ⟨hperm, hpid'⟩ := ih
            { st with pending := st.pending
                ++ [(DrawingState.opIdOf d.userId now,
                     DrawingState.mkOperation d now)] }
            hall.2 hnd'
            (by
              intro x hx
              simp only [List.map_append, List.mem_append]
              rintro (hmem | hmem)
              · exact hfresh x (List.mem_cons_of_mem _ hx) hmem
              · simp only [List.map_cons, List.map_nil,
                  List.mem_singleton] at hmem
                exact hno (hmem ▸ hx))
            (by
              intro p hp
              rcases List.mem_append.1 hp with hm | hm
              · exact hpid p hm
              · rw [List.mem_singleton.1 hm]
                rfl)
          refine ⟨hperm.trans ?_, hpid'⟩
          simp only [List.map_append, List.map_cons, List.map_nil]
          exact perm_shuffle_open _ _ _ _
      | finalize oid =>
          have hids : openIds (Event.finalize oid :: rest)
              = openIds rest := by
            simp [openIds]
          rw [hids] at hnd hfresh
          cases hg : alGet st.pending oid with
          | none =>
              have hstep : specStep st (Event.finalize oid) = st := by
                simp [specStep, hg]
              rw [List.foldl_cons, hstep]
              exact ih st hall.2 hnd hfresh hpid
          | some op =>
              have hmem : (oid, op) ∈ st.pending := alGet_mem _ _ _ hg
              have hido : op.id = oid := hpid _ hmem
              have hkeymem : oid ∈ st.pending.map Prod.fst :=
                alGet_mem_keys _ _ (by rw [hg]; rfl)
              have hstep : specStep st (Event.finalize oid)
                  = { pending := alErase st.pending oid
                      hist := st.hist
                        ++ [{ op with status := Status.active }] } := by
                simp [specStep, hg]
              rw [List.foldl_cons, hstep]
              obtain ⟨hperm, hpid'⟩ := ih
                { pending := alErase st.pending oid
                  hist := st.hist ++ [{ op with status := Status.active }] }
                hall.2 hnd
                (by
                  intro x hx hmem'
                  have : x ∈ st.pending.map Prod.fst := by
                    rw [alErase_keys] at hmem'
                    exact (List.erase_sublist _ _).subset hmem'
                  exact hfresh x hx this)
                (by
                  intro p hp
                  exact hpid p (alErase_subset _ _ _ hp))
              refine ⟨hperm.trans ?_, hpid'⟩
              rw [alErase_keys]
              simp only [List.map_append, List.map_cons, List.map_nil]
              have : ({ op with status := Status.active }).id = oid := hido
              rw [this]
              exact perm_shuffle_fin _ _ _ _ hkeymem

/-- C2.  For every trace made only of `Open` and `Finalize` events in
which the generated open ids are distinct and every opened operation was
finalized (the reference ledger ends with an empty pending map),
`getActiveOperations` returns exactly the finalized operations in the
order the `Finalize` calls occurred: it equals the `hist` of the
reference ledger — which appends each operation at the moment of its
successful `Finalize` — and the ids of that history are a permutation of
the opened ids (so exactly those operations appear). -/
theorem activeOperations_finalize_order (es : List Event)
    (h1 : es.all isOpenOrFin = true)
    (h2 : (openIds es).Nodup)
    (h3 : (specRun es).pending = []) :
    (runEvents es).getActiveOperations
      = (specRun es).hist.map DrawingState.toActiveOp
    ∧ ((specRun es).hist.map Operation.id).Perm (openIds es) := by
  obtain ⟨hops, hpend, hci, hact⟩ := simInv_run es h1
  constructor
  · unfold DrawingState.getActiveOperations
    rw [hops]
    congr 1
    apply List.filter_eq_self.mpr
    intro a ha
    simp [hact a ha]
  · obtain ⟨hperm, _⟩ := specRun_keys_perm es { pending := [], hist := [] }
      h1 h2 (by simp) (by simp)
    have hpe : (specRun es).pending.map Prod.fst = [] := by
      rw [show (specRun es).pending = [] from h3]
      rfl
    unfold specRun at hpe ⊢
    rw [hpe] at hperm
    simpa using hperm

/-- Witness for C2 on the two-operation trace `sampleTrace`. -/
theorem activeOperations_finalize_order_witness :
    sampleTrace.all isOpenOrFin = true
    ∧ (openIds sampleTrace).Nodup
    ∧ (specRun sampleTrace).pending = []
    ∧ ((runEvents sampleTrace).getActiveOperations
        = (specRun sampleTrace).hist.map DrawingState.toActiveOp
      ∧ ((specRun sampleTrace).hist.map Operation.id).Perm
          (openIds sampleTrace)) :=
  ⟨by decide, by decide, by decide,
   activeOperations_finalize_order sampleTrace (by decide) (by decide)
     (by decide)⟩

/-! ## C3: operation-id uniqueness

The id is the string `op-` ++ author ++ `-` ++ decimal clock value.  Two
opens by the same author in the same millisecond produce the same id; we
show this is the only way ids collide, by proving the decimal printer
injective and dash-free and splitting the id at its last dash. -/

theorem digitChar_toNat (a : Nat) (h : a < 10) :
    (Nat.digitChar a).toNat = 48 + a := by
  interval_cases a <;> rfl

theorem digitChar_inj10 (a b : Nat) (ha : a < 10) (hb : b < 10)
    (h : Nat.digitChar a = Nat.digitChar b) : a = b := by
  have h2 := congrArg Char.toNat h
  rw [digitChar_toNat a ha, digitChar_toNat b hb] at h2
  omega

theorem digitChar_ne_dash (a : Nat) (h : a < 10) : Nat.digitChar a ≠ '-' := by
  intro hcon
  have h2 := congrArg Char.toNat hcon
  rw [digitChar_toNat a h] at h2
  have h3 : Char.toNat '-' = 45 := rfl
  omega

theorem toDigitsCore_append (fuel : Nat) : ∀ (n : Nat) (ds : List Char),
    n < fuel →
    Nat.toDigitsCore 10 fuel n ds = Nat.toDigitsCore 10 fuel n [] ++ ds := by
  induction fuel with
  | zero => omega
  | succ f ih =>
      intro n ds _
      simp only [Nat.toDigitsCore]
      by_cases hz : n / 10 = 0
      · simp [hz]
      · simp only [hz, if_false]
        have hn' : n / 10 < f := by omega
        rw [ih (n / 10) _ hn', ih (n / 10) [Nat.digitChar (n % 10)] hn',
          List.append_assoc, List.singleton_append]

theorem toDigitsCore_fuel (n : Nat) : ∀ f : Nat, n < f →
    Nat.toDigitsCore 10 f n [] = Nat.toDigits 10 n := by
  induction n using Nat.strong_induction_on with
  | _ n ih =>
      intro f hf
      cases f with
      | zero => omega
      | succ f' =>
          unfold Nat.toDigits
          simp only [Nat.toDigitsCore]
          by_cases hz : n / 10 = 0
          · simp [hz]
          · simp only [hz, if_false]
            have h1 : n / 10 < f' := by omega
            have h2 : n / 10 < n := by omega
            rw [toDigitsCore_append f' (n / 10) _ h1,
              toDigitsCore_append n (n / 10) _ (by omega),
              ih (n / 10) h2 f' h1, ih (n / 10) h2 n (by omega)]

theorem toDigits_small (n : Nat) (h : n / 10 = 0) :
    Nat.toDigits 10 n = [Nat.digitChar (n % 10)] := by
  unfold Nat.toDigits
  simp [Nat.toDigitsCore, h]

theorem toDigits_recurrence (n : Nat) (h : ¬n / 10 = 0) :
    Nat.toDigits 10 n
      = Nat.toDigits 10 (n / 10) ++ [Nat.digitChar (n % 10)] := by
  conv_lhs => rw [Nat.toDigits]
  simp only [Nat.toDigitsCore]
  rw [if_neg h]
  have h2 : n / 10 < n := by omega
  rw [toDigitsCore_append n (n / 10) _ (by omega),
    toDigitsCore_fuel (n / 10) n (by omega)]

theorem dash_not_in_toDigits (n : Nat) : '-' ∉ Nat.toDigits 10 n := by
  induction n using Nat.strong_induction_on with
  | _ n ih =>
      by_cases hz : n / 10 = 0
      · rw [toDigits_small n hz]
        intro hmem
        exact digitChar_ne_dash (n % 10) (by omega)
          (List.mem_singleton.1 hmem).symm
      · rw [toDigits_recurrence n hz]
        intro hmem
        rcases List.mem_append.1 hmem with hm | hm
        · exact ih (n / 10) (by omega) hm
        · exact digitChar_ne_dash (n % 10) (by omega)
            (List.mem_singleton.1 hm).symm

theorem toDigits_length_pos (k : Nat) : 0 < (Nat.toDigits 10 k).length := by
  by_cases hz : k / 10 = 0
  · rw [toDigits_small k hz]
    simp
  · rw [toDigits_recurrence k hz]
    simp

theorem toDigits_injective (m : Nat) : ∀ n : Nat,
    Nat.toDigits 10 m = Nat.toDigits 10 n → m = n := by
  induction m using Nat.strong_induction_on with
  | _ m ih =>
      intro n h
      by_cases hm : m / 10 = 0 <;> by_cases hn : n / 10 = 0
      · rw [toDigits_small m hm, toDigits_small n hn] at h
        have h2 := digitChar_inj10 (m % 10) (n % 10) (by omega) (by omega)
          (by simpa using h)
        omega
      · rw [toDigits_small m hm, toDigits_recurrence n hn] at h
        have h2 := congrArg List.length h
        have h3 := toDigits_length_pos (n / 10)
        rw [List.length_append, List.length_singleton,
          List.length_singleton] at h2
        omega
      · rw [toDigits_recurrence m hm, toDigits_small n hn] at h
        have h2 := congrArg List.length h
        have h3 := toDigits_length_pos (m / 10)
        rw [List.length_append, List.length_singleton,
          List.length_singleton] at h2
        omega
      · rw [toDigits_recurrence m hm, toDigits_recurrence n hn,
          ← List.concat_eq_append, ← List.concat_eq_append] at h
        obtain ⟨h1, h2⟩ := List.concat_inj.1 h
        have e1 : m / 10 = n / 10 := ih (m / 10) (by omega) (n / 10) h1
        have e2 : m % 10 = n % 10 :=
          digitChar_inj10 _ _ (by omega) (by omega) h2
        omega

/-- Splitting a character list at its last dash: when neither suffix
contains a dash, equal lists split equally. -/
theorem append_dash_inj (a : List Char) : ∀ (b s t : List Char),
    '-' ∉ s → '-' ∉ t → a ++ '-' :: s = b ++ '-' :: t →
    a = b ∧ s = t := by
  induction a with
  | nil =>
      intro b s t hs ht h
      cases b with
      | nil =>
          rw [List.nil_append, List.nil_append] at h
          injection h with _ h2
          exact ⟨rfl, h2⟩
      | cons c bs =>
          rw [List.nil_append, List.cons_append] at h
          injection h with _ h2
          exact absurd (h2 ▸ List.mem_append_right bs (List.mem_cons_self _ _))
            hs
  | cons c as ih =>
      intro b s t hs ht h
      cases b with
      | nil =>
          rw [List.nil_append, List.cons_append] at h
          injection h with _ h2
          exact absurd (h2.symm ▸ List.mem_append_right as
            (List.mem_cons_self _ _)) ht
      | cons c' bs =>
          rw [List.cons_append, List.cons_append] at h
          injection h with h1 h2
          obtain ⟨hab, hst⟩ := ih bs s t hs ht h2
          exact ⟨by rw [h1, hab], hst⟩

/-- The id template is injective in the author/clock pair. -/
theorem opIdOf_inj (u1 u2 : String) (n1 n2 : Nat)
    (h : DrawingState.opIdOf u1 n1 = DrawingState.opIdOf u2 n2) :
    u1 = u2 ∧ n1 = n2 := by
  have hd := congrArg String.data h
  simp only [DrawingState.opIdOf, String.data_append] at hd
  have hts1 : (toString n1).data = Nat.toDigits 10 n1 := rfl
  have hts2 : (toString n2).data = Nat.toDigits 10 n2 := rfl
  rw [hts1, hts2] at hd
  rw [List.append_assoc (['o', 'p', '-'] ++ u1.data),
    List.append_assoc (['o', 'p', '-'] ++ u2.data),
    List.singleton_append, List.singleton_append] at hd
  obtain ⟨h1, h2⟩ := append_dash_inj _ _ _ _
    (dash_not_in_toDigits n1) (dash_not_in_toDigits n2) hd
  refine ⟨?_, toDigits_injective n1 n2 h2⟩
  have hu : u1.data = u2.data := List.append_cancel_left h1
  cases u1
  cases u2
  simp only at hu
  rw [hu]

/-- Counterexample to C3 as stated.  Two distinct `startOperation` calls
— the second on the ledger produced by the first — by the same author in
the same millisecond return the same operation id, so the id is reused. -/
theorem open_id_collision_same_tick :
    ((DrawingState.empty.startOperation sampleStart 5).2).operationId
      = (((DrawingState.empty.startOperation sampleStart 5).1).startOperation
          sampleStart 5).2.operationId := rfl

/-- C3 as amended.  Two `Open` calls (on any ledger states) return
distinct operation ids whenever they differ in author or in the observed
`Date.now()` millisecond; consequently an id is reused only by the same
author within the same clock tick. -/
theorem open_ids_differ_off_tick (s1 s2 : DrawingState)
    (d1 d2 : StartData) (n1 n2 : Nat)
    (h : d1.userId ≠ d2.userId ∨ n1 ≠ n2) :
    ((s1.startOperation d1 n1).2).operationId
      ≠ ((s2.startOperation d2 n2).2).operationId := by
  intro hcon
  have hids : DrawingState.opIdOf d1.userId n1
      = DrawingState.opIdOf d2.userId n2 := hcon
  obtain ⟨hu, hn⟩ := opIdOf_inj _ _ _ _ hids
  rcases h with h | h
  · exact h hu
  · exact h hn

/-- Witness for the amended C3: different authors at the same tick get
different ids. -/
theorem open_ids_differ_off_tick_witness :
    (sampleStart.userId ≠ sampleStartB.userId ∨ (5 : Nat) ≠ 5)
    ∧ ((DrawingState.empty.startOperation sampleStart 5).2).operationId
      ≠ ((DrawingState.empty.startOperation sampleStartB 5).2).operationId :=
  ⟨Or.inl (by decide),
   open_ids_differ_off_tick DrawingState.empty DrawingState.empty
     sampleStart sampleStartB 5 5 (Or.inl (by decide))⟩

/-! ## C10: addUser always advances the palette cursor -/

/-- C10.  Every `addUser` call advances the room's color cursor by
exactly one; and when the participant id is already in the roster the
entry is replaced (JS `Map.set`) with a fresh record carrying the next
palette color while the roster size stays the same. -/
theorem addUser_advances_color_cursor :
    (∀ (rm : RoomManager) (roomId userId username : String) (now : Nat),
      (alGet (rm.addUser roomId userId username now).1.rooms roomId).map
          Room.colorIndex
        = some ((rm.getRoom roomId).2.colorIndex + 1))
    ∧
    (∀ (rm : RoomManager) (roomId userId username : String) (now : Nat),
      (alGet (rm.getRoom roomId).2.users userId).isSome = true →
      (alGet (rm.addUser roomId userId username now).1.rooms roomId).map
          Room.users
        = some (alSet (rm.getRoom roomId).2.users userId
            { id := userId, username := username
              color := userColors.getD
                ((rm.getRoom roomId).2.colorIndex % userColors.length) ""
              joinedAt := now })
      ∧ (alGet (rm.addUser roomId userId username now).1.rooms roomId).map
          (fun r => r.users.length)
        = some (rm.getRoom roomId).2.users.length) := by
  constructor
  · intro rm roomId userId username now
    simp [RoomManager.addUser, alGet_set_self]
  · intro rm roomId userId username now hmem
    refine ⟨?_, ?_⟩
    · simp [RoomManager.addUser, alGet_set_self]
    · simp [RoomManager.addUser, alGet_set_self,
        alSet_length_of_isSome _ _ _ hmem]

/-- Witness for C10 at a repeat join: `"sock"` is already in the roster
of `sampleRM`; re-adding it keeps the roster size and bumps the
cursor. -/
theorem addUser_advances_color_cursor_witness :
    (alGet (sampleRM.getRoom "r").2.users "sock").isSome = true
    ∧ ((alGet (sampleRM.addUser "r" "sock" "bob" 9).1.rooms "r").map
          Room.users
        = some (alSet (sampleRM.getRoom "r").2.users "sock"
            { id := "sock", username := "bob"
              color := userColors.getD
                ((sampleRM.getRoom "r").2.colorIndex % userColors.length) ""
              joinedAt := 9 })
      ∧ (alGet (sampleRM.addUser "r" "sock" "bob" 9).1.rooms "r").map
          (fun r => r.users.length)
        = some (sampleRM.getRoom "r").2.users.length) :=
  ⟨by decide,
   addUser_advances_color_cursor.2 sampleRM "r" "sock" "bob" 9 (by decide)⟩

/-! ## C8: stroke broadcasts carry the payload style, presence
broadcasts the room-assigned color -/

/-- C8.  For a joined sender, the `draw-start` handler broadcasts
`remote-draw-start` to the other room members with the color, width and
tool taken verbatim from the sender's event payload, while the
`cursor-move` handler broadcasts `remote-cursor` with the sender's
room-assigned presence color. -/
theorem stroke_and_presence_color_namespaces
    (rm : RoomManager) (conn : ConnState) (socketId room : String)
    (user author : User) (data : DrawStartData) (now : Nat) (cx cy : Int)
    (hroom : conn.currentRoom = some room)
    (huser : conn.currentUser = some user)
    (hauthor : alGet (rm.getRoom room).2.users socketId = some author) :
    (handleDrawStart rm conn socketId data now).emits =
      [Emission.toSender
        (ServerEvent.operationStarted (DrawingState.opIdOf socketId now)),
       Emission.toRoomOthers room
        (ServerEvent.remoteDrawStart socketId user.username data.color
          data.width data.tool (DrawingState.opIdOf socketId now)
          data.x data.y)]
    ∧ handleCursorMove conn socketId cx cy =
      [Emission.toRoomOthers room
        (ServerEvent.remoteCursor socketId user.username user.color cx cy)] := by
  constructor
  · simp [handleDrawStart, RoomManager.startOperation,
      DrawingState.startOperation, hroom, huser, hauthor]
  · simp [handleCursorMove, hroom, huser]

/-- Witness for C8 with the one-user room `sampleRM` and the joined
connection `sampleConn`. -/
theorem stroke_and_presence_color_namespaces_witness :
    alGet (sampleRM.getRoom "r").2.users "sock" = some sampleUser
    ∧ ((handleDrawStart sampleRM sampleConn "sock" sampleDraw 7).emits =
        [Emission.toSender
          (ServerEvent.operationStarted (DrawingState.opIdOf "sock" 7)),
         Emission.toRoomOthers "r"
          (ServerEvent.remoteDrawStart "sock" sampleUser.username
            sampleDraw.color sampleDraw.width sampleDraw.tool
            (DrawingState.opIdOf "sock" 7) sampleDraw.x sampleDraw.y)]
      ∧ handleCursorMove sampleConn "sock" 3 4 =
        [Emission.toRoomOthers "r"
          (ServerEvent.remoteCursor "sock" sampleUser.username
            sampleUser.color 3 4)]) :=
  ⟨by decide,
   stroke_and_presence_color_namespaces sampleRM sampleConn "sock" "r"
     sampleUser sampleUser sampleDraw 7 3 4 rfl rfl (by decide)⟩

/-! ## C9: join defaults -/

/-- Counterexample to C9 as stated.  A join intent whose `room` field is
present but blank (the empty string) does not fall back to `"default"`:
JS destructuring defaults apply only to an absent (`undefined`) field,
so the sender is joined to the room named by the empty string. -/
theorem blank_room_not_defaulted :
    (handleJoinRoom RoomManager.empty ConnState.initial "sock"
      { username := some "alice", room := some "" } 0).conn.currentRoom
      = some ""
    ∧ (some "" : Option String) ≠ some "default" := by
  decide

/-- C9 as amended.  The room actually joined is the payload's `room`
field with `"default"` substituted only when the field is absent; the
display name falls back (through JS `||`, so for an absent or empty
string) to `User` followed by the first four characters of the socket
id, and is otherwise used exactly as sent — the server applies no length
cap (the repository's client truncates to 20 characters before
sending).  The joined user is inserted in the target room's roster. -/
theorem join_room_defaults (rm : RoomManager) (conn : ConnState)
    (socketId : String) (data : JoinData) (now : Nat) :
    (handleJoinRoom rm conn socketId data now).conn.currentRoom
      = some (data.room.getD "default")
    ∧ ∃ u : User,
        (handleJoinRoom rm conn socketId data now).conn.currentUser = some u
        ∧ u.username = (match data.username with
            | some s => if s = "" then "User" ++ socketId.take 4 else s
            | none => "User" ++ socketId.take 4)
        ∧ u.id = socketId
        ∧ ∃ room' : Room,
            alGet (handleJoinRoom rm conn socketId data now).rm.rooms
              (data.room.getD "default") = some room'
            ∧ alGet room'.users socketId = some u := by
  refine ⟨rfl, ?_⟩
  obtain ⟨room', h1, h2⟩ := addUser_getRoomState_roster
    (match conn.currentRoom with
     | some prev => rm.removeUser prev socketId
     | none => rm)
    (data.room.getD "default") socketId
    (match data.username with
     | some s => if s = "" then "User" ++ socketId.take 4 else s
     | none => "User" ++ socketId.take 4) now
  exact ⟨_, rfl, rfl, rfl, room', h1, h2⟩

end Canvas
